import Mathlib

/-!
# Verification of the skip list in `src/app/SkipList.hpp`

This file gives a shallow embedding of the skip list implementation
(`SkipList.hpp`, the implemented version) and proves / refutes the frozen
claims about it.

Embedding conventions:

* A `SkipNode` graph is represented positionally.  Layer 0 (the bottom
  layer) is the list `layer0` of key/value pairs between its two
  sentinels, in node order; layer `i + 1` is the list `upper[i]` of the
  keys of its real nodes in node order.  The `-inf` / `+inf` sentinels of
  each layer are implicit at the two ends of each list.  A vertical
  `top`/`bottom` chain links a key's occurrences in consecutive layers,
  so the length of the `top`-chain above a layer-0 node for key `k` is
  the number of consecutive upper layers whose node list contains `k`.
* The shared search loop (`while (temp->bottom) { descend; advance while
  !next->p_inf && k >= next->key }`) always ends in layer 0 on the last
  node whose key is `<= k`, or on the `-inf` sentinel when no such node
  exists; `landing` embeds it (`none` = the `-inf` sentinel).
* `throw RuntimeException` is modelled by `Option`: `none` is the raised
  `NotFound` error.
* C++ `unsigned` keys are `Nat` (all keys handled here are `< 2^32`, and
  the byte masks in `flipCoin` act exactly as in the 32-bit source);
  default-constructed `Key()` (the key field a sentinel node carries) is
  `(default : Key)`, which for `Nat` is `0`, matching `unsigned()`.
* The promotion loop of `insert` runs its body at most `max_flips - 1`
  times (the guard requires `height + 1 < max_flips` and `height` grows
  by one each iteration, starting at 0), so it is embedded with a fuel
  parameter instantiated to `max_flips`; the `fuel = 0` branch is
  unreachable at that instantiation.
-/

/-- `flipCoin(unsigned key, unsigned previousFlips)` from `SkipList.hpp`
lines 92-101: XOR the four bytes of the key, test bit
`previousFlips % 8`.  (The `char c` in the source holds the XOR of four
byte values; the bit test `c & (1 << previousFlips)` only inspects bits
0..7, so sign extension of `char` is irrelevant.) -/
def flipCoin (key : Nat) (previousFlips : Nat) : Bool :=
  let first8Bits := (key &&& 0xFF000000) / 0x01000000
  let next8Bits := (key &&& 0x00FF0000) / 0x00010000
  let andThen := (key &&& 0x0000FF00) / 0x00000100
  let lastBits := key &&& 0x000000FF
  let c := first8Bits ^^^ next8Bits ^^^ andThen ^^^ lastBits
  (c &&& (1 <<< (previousFlips % 8))) != 0

/-- `flipCoin(std::string key, unsigned previousFlips)` from
`SkipList.hpp` lines 113-120: `char c = key[0]` (for an empty
`std::string`, `key[0]` is the null character, i.e. `0`), XOR the
remaining characters into `c`, test bit `previousFlips % 8`.  The
string is viewed as its list of character byte values. -/
def flipCoinStr (key : List Nat) (previousFlips : Nat) : Bool :=
  let c := key.tail.foldl (fun a b => a ^^^ b) (key.headD 0)
  (c &&& (1 <<< (previousFlips % 8))) != 0

/-- The observable state of a `SkipList<Key, Value>` (`SkipList.hpp`
lines 135-143): the node graph, represented positionally
(`layer0` = real nodes of the bottom layer in order, with values;
`upper[i]` = keys of the real nodes of layer `i + 1` in order), plus the
two maintained counters `num_layers` and `num_keys`. -/
structure SkipList (Key Value : Type) where
  layer0 : List (Key × Value)
  upper : List (List Key)
  num_layers : Nat
  num_keys : Nat

namespace SkipList

variable {Key Value : Type} [LinearOrder Key]

/-- The default constructor (`SkipList.hpp` lines 235-256): two
sentinel-only layers, `num_layers = 2`, `num_keys = 0`. -/
def emptySkipList : SkipList Key Value :=
  { layer0 := [], upper := [[]], num_layers := 2, num_keys := 0 }

/-- Inner advance of the shared search loop, already standing on real
node `cur` of layer 0: keep moving right while the next node is real
and its key is `<= k`; return the node the walk ends on. -/
def landingGo (k : Key) (cur : Key × Value) : List (Key × Value) → Key × Value
  | [] => cur
  | e :: es => if e.1 ≤ k then landingGo k e es else cur

/-- The shared search primitive (the `while (temp->bottom) ... while
(!temp->next->p_inf && k >= temp->next->key)` loop appearing in
`height`, `nextKey`, `previousKey`, `find` and `insert`): the layer-0
node it ends on, `none` when it ends on the `-inf` sentinel. -/
def landing (k : Key) (l : List (Key × Value)) : Option (Key × Value) :=
  match l with
  | [] => none
  | e :: es => if e.1 ≤ k then some (landingGo k e es) else none

/-- `size()` (`SkipList.hpp` lines 272-275). -/
def size (s : SkipList Key Value) : Nat := s.num_keys

/-- `isEmpty()` (`SkipList.hpp` lines 277-280). -/
def isEmpty (s : SkipList Key Value) : Bool := s.num_keys == 0

/-- `numLayers()` (`SkipList.hpp` lines 282-285). -/
def numLayers (s : SkipList Key Value) : Nat := s.num_layers

/-- `height(k)` (`SkipList.hpp` lines 287-308): search for `k` in layer
0; throw (`none`) unless the landing node is a real node with key `k`;
otherwise `1 +` the length of the `top`-link chain above the node.
Under the representation, that chain length is the number of
consecutive upper layers (from layer 1 up) containing `k`. -/
def height (k : Key) (s : SkipList Key Value) : Option Nat :=
  match landing k s.layer0 with
  | none => none
  | some e =>
      if e.1 = k then
        some (1 + (s.upper.takeWhile (fun L => decide (k ∈ L))).length)
      else none

/-- Inner walk of `nextKey` (`SkipList.hpp` lines 310-325), standing on
node `cur`: advance while the next node is real with key `<= k`; at the
end, throw (`none`) unless the landing node's key is `k` and its `next`
is a real node, in which case return that next node's key. -/
def nextKeyGo (k : Key) (cur : Key × Value) : List (Key × Value) → Option Key
  | [] => none
  | e :: es =>
      if e.1 ≤ k then nextKeyGo k e es
      else if cur.1 = k then some e.1 else none

/-- `nextKey(k)` (`SkipList.hpp` lines 310-325). -/
def nextKey (k : Key) (s : SkipList Key Value) : Option Key :=
  match s.layer0 with
  | [] => none
  | e :: es => if e.1 ≤ k then nextKeyGo k e es else none

/-- Inner walk of `previousKey` (`SkipList.hpp` lines 327-342), standing
on node `cur` whose predecessor is `prev` (`none` = the `-inf`
sentinel): advance while the next node is real with key `<= k`; at the
end, throw (`none`) unless the landing node's key is `k` and its
`previous` is a real node, in which case return that previous node's
key. -/
def previousKeyGo (k : Key) (prev : Option Key) (cur : Key × Value) :
    List (Key × Value) → Option Key
  | [] => if cur.1 = k then prev else none
  | e :: es =>
      if e.1 ≤ k then previousKeyGo k (some cur.1) e es
      else if cur.1 = k then prev else none

/-- `previousKey(k)` (`SkipList.hpp` lines 327-342). -/
def previousKey (k : Key) (s : SkipList Key Value) : Option Key :=
  match s.layer0 with
  | [] => none
  | e :: es => if e.1 ≤ k then previousKeyGo k none e es else none

/-- `find(k)` (`SkipList.hpp` lines 344-376, both overloads): search in
layer 0; return the landing node's value if it is a real node with key
`k`, otherwise throw (`none`). -/
def find (k : Key) (s : SkipList Key Value) : Option Value :=
  match landing k s.layer0 with
  | none => none
  | some e => if e.1 = k then some e.2 else none

/-- `allKeysInOrder()` (`SkipList.hpp` lines 447-459): the keys of the
real nodes of layer 0, start to end. -/
def allKeysInOrder (s : SkipList Key Value) : List Key :=
  s.layer0.map Prod.fst

/-- `isSmallestKey(k)` (`SkipList.hpp` lines 461-471): descend to layer
0 and compare `temp->next->key == k`.  No code path throws.  When layer
0 is empty, `temp->next` is the `+inf` sentinel, whose `key` field is
the default-constructed `Key()` (`default`). -/
def isSmallestKey [Inhabited Key] (k : Key) (s : SkipList Key Value) : Bool :=
  decide ((match s.layer0.head? with
           | some e => e.1
           | none => (default : Key)) = k)

/-- `isLargestKey(k)` (`SkipList.hpp` lines 473-486): descend to layer
0, walk to the last node before the `+inf` sentinel, compare its key
with `k`.  No code path throws.  When layer 0 is empty the walk stays
on the `-inf` sentinel, whose `key` field is the default-constructed
`Key()` (`default`). -/
def isLargestKey [Inhabited Key] (k : Key) (s : SkipList Key Value) : Bool :=
  decide ((match s.layer0.getLast? with
           | some e => e.1
           | none => (default : Key)) = k)

/-- Was the landing node a real node with key `k`?  This is exactly the
duplicate test `!temp->n_inf && temp->key == k` of `insert`
(`SkipList.hpp` lines 389-391). -/
def keyFound (k : Key) (l : List (Key × Value)) : Bool :=
  match landing k l with
  | none => false
  | some e => decide (e.1 = k)

/-- Splicing the new layer-0 node immediately after the landing
position (`SkipList.hpp` lines 393-398): the new pair goes after every
node whose key is `<= k`. -/
def insertEntry (k : Key) (v : Value) : List (Key × Value) → List (Key × Value)
  | [] => [(k, v)]
  | e :: es => if e.1 ≤ k then e :: insertEntry k v es else (k, v) :: e :: es

/-- Splicing a promoted node for `k` into an upper layer
(`SkipList.hpp` lines 428-441): walk left to the nearest node with a
`top` link, ascend, splice after it.  Under the representation
invariant (a node of layer `L+1` sits vertically above that key's node
of layer `L`, and each layer is in ascending key order), the node
ascended to is the last node of the upper layer whose key is `< k`, so
the splice puts `k` after every key `<= k` of that layer. -/
def insertUpper (k : Key) : List Key → List Key
  | [] => [k]
  | x :: xs => if x ≤ k then x :: insertUpper k xs else k :: x :: xs

/-- The cutoff computation of `insert` (`SkipList.hpp` lines 401-406):
`max_flips = 12` if `num_keys <= 16` (with `num_keys` already counting
the new key), else `3 * ceil(log2(num_keys))`.  The C++ evaluates
`ceil(log2(n))` in `double`; for the integer inputs involved that is
exactly `Nat.clog 2 n`. -/
def maxFlips (n : Nat) : Nat :=
  if n ≤ 16 then 12 else 3 * Nat.clog 2 n

/-- The promotion loop of `insert` (`SkipList.hpp` lines 408-442).
State: current flip index `height` (named `h`), the upper layers `up`,
the layer counter `L` (`num_layers`).  Guard: `flipCoin(k, height) &&
height + 1 < max_flips`.  Body: `height++` (so the new flip index is
`h + 1`); if `height + 1 >= num_layers` — i.e. `L ≤ h + 2` — append a
new sentinel-only top layer and `num_layers++`; splice a node for `k`
into layer `height`, which is `up` at index `height - 1 = h`.  Returns
the final upper layers, layer counter, and flip index (= number of
promotions performed).  `fuel` bounds the iteration count; every
caller passes `fuel = max_flips`, which the guard makes sufficient. -/
def promoteLoop (coin : Key → Nat → Bool) (k : Key) (mf : Nat) :
    Nat → Nat → List (List Key) → Nat → List (List Key) × Nat × Nat
  | 0, h, up, L => (up, L, h)
  | fuel + 1, h, up, L =>
      if coin k h && decide (h + 1 < mf) then
        if L ≤ h + 2 then
          promoteLoop coin k mf fuel (h + 1)
            ((up ++ [[]]).set h (insertUpper k ((up ++ [[]]).getD h []))) (L + 1)
        else
          promoteLoop coin k mf fuel (h + 1)
            (up.set h (insertUpper k (up.getD h []))) L
      else (up, L, h)

/-- `insert(k, v)` (`SkipList.hpp` lines 378-445), parametrised by the
coin function (`flipCoin` at either overload): search layer 0; if the
landing node is a real node with key `k`, return `false` without
mutation; else splice the new node into layer 0, increment `num_keys`,
compute `max_flips`, run the promotion loop, return `true`. -/
def insert (coin : Key → Nat → Bool) (k : Key) (v : Value)
    (s : SkipList Key Value) : Bool × SkipList Key Value :=
  if keyFound k s.layer0 then (false, s)
  else
    match promoteLoop coin k (maxFlips (s.num_keys + 1)) (maxFlips (s.num_keys + 1))
        0 s.upper s.num_layers with
    | (up2, L2, _h2) =>
        (true, { layer0 := insertEntry k v s.layer0,
                 upper := up2, num_layers := L2, num_keys := s.num_keys + 1 })

/-- The number of promotions a call `insert(k, v)` performs: `0` on the
duplicate early-return path, otherwise the final flip index of the
promotion loop. -/
def insertPromotions (coin : Key → Nat → Bool) (k : Key)
    (s : SkipList Key Value) : Nat :=
  if keyFound k s.layer0 then 0
  else (promoteLoop coin k (maxFlips (s.num_keys + 1)) (maxFlips (s.num_keys + 1))
          0 s.upper s.num_layers).2.2

/-- Inserting a list of key/value pairs in order, keeping only the
states (the driver pattern of the repository's tests). -/
def insertAll (coin : Key → Nat → Bool) (l : List (Key × Value))
    (s : SkipList Key Value) : SkipList Key Value :=
  l.foldl (fun t e => (insert coin e.1 e.2 t).2) s

end SkipList

namespace SkipList

variable {Key Value : Type} [LinearOrder Key]

/-! ### Basic facts about the splice helpers -/

theorem mem_insertUpper {k x : Key} {l : List Key} :
    x ∈ insertUpper k l ↔ x = k ∨ x ∈ l := by
  induction l with
  | nil => simp [insertUpper]
  | cons e es ih =>
      by_cases h : e ≤ k
      · simp only [insertUpper, if_pos h, List.mem_cons, ih]
        tauto
      · simp [insertUpper, if_neg h]

theorem insertUpper_perm (k : Key) (l : List Key) :
    (insertUpper k l).Perm (k :: l) := by
  induction l with
  | nil => simp [insertUpper]
  | cons e es ih =>
      by_cases h : e ≤ k
      · simpa only [insertUpper, if_pos h] using (ih.cons e).trans (List.Perm.swap k e es)
      · simp [insertUpper, if_neg h]

theorem insertUpper_sorted {k : Key} {l : List Key} (hs : l.Pairwise (· < ·))
    (hk : k ∉ l) : (insertUpper k l).Pairwise (· < ·) := by
  induction l with
  | nil => simp [insertUpper]
  | cons e es ih =>
      rcases List.pairwise_cons.1 hs with ⟨he, hes⟩
      by_cases h : e ≤ k
      · have hek : e < k :=
          lt_of_le_of_ne h (fun he' => hk (he' ▸ List.mem_cons_self e es))
        simp only [insertUpper, if_pos h]
        refine List.pairwise_cons.2 ⟨?_, ih hes (fun hm => hk (List.mem_cons_of_mem _ hm))⟩
        intro x hx
        rcases mem_insertUpper.1 hx with rfl | hx
        · exact hek
        · exact he x hx
      · simp only [insertUpper, if_neg h]
        refine List.pairwise_cons.2 ⟨?_, hs⟩
        intro x hx
        rcases List.mem_cons.1 hx with rfl | hx
        · exact not_le.1 h
        · exact lt_trans (not_le.1 h) (he x hx)

theorem map_fst_insertEntry (k : Key) (v : Value) (l : List (Key × Value)) :
    (insertEntry k v l).map Prod.fst = insertUpper k (l.map Prod.fst) := by
  induction l with
  | nil => rfl
  | cons e es ih =>
      by_cases h : e.1 ≤ k
      · simp [insertEntry, insertUpper, h, ih]
      · simp [insertEntry, insertUpper, h]

theorem mem_insertEntry {k : Key} {v : Value} {e : Key × Value} {l : List (Key × Value)} :
    e ∈ insertEntry k v l ↔ e = (k, v) ∨ e ∈ l := by
  induction l with
  | nil => simp [insertEntry]
  | cons e' es ih =>
      by_cases h : e'.1 ≤ k
      · simp only [insertEntry, if_pos h, List.mem_cons, ih]
        tauto
      · simp [insertEntry, if_neg h]

theorem length_insertEntry (k : Key) (v : Value) (l : List (Key × Value)) :
    (insertEntry k v l).length = l.length + 1 := by
  induction l with
  | nil => rfl
  | cons e es ih =>
      by_cases h : e.1 ≤ k
      · simp [insertEntry, h, ih]
      · simp [insertEntry, h]

theorem insertEntry_sorted {k : Key} {v : Value} {l : List (Key × Value)}
    (hs : l.Pairwise (fun a b => a.1 < b.1)) (hk : k ∉ l.map Prod.fst) :
    (insertEntry k v l).Pairwise (fun a b => a.1 < b.1) := by
  have h0 : ((insertEntry k v l).map Prod.fst).Pairwise (· < ·) := by
    rw [map_fst_insertEntry]
    exact insertUpper_sorted (List.pairwise_map.2 hs) hk
  exact List.pairwise_map.1 h0

/-! ### The search primitive on sorted layer-0 lists -/

theorem landingGo_mem (k : Key) (cur : Key × Value) (l : List (Key × Value)) :
    landingGo k cur l ∈ cur :: l := by
  induction l generalizing cur with
  | nil => simp [landingGo]
  | cons e es ih =>
      by_cases h : e.1 ≤ k
      · simp only [landingGo, if_pos h]
        exact List.mem_cons_of_mem _ (ih e)
      · simp [landingGo, if_neg h]

/-- Every key of a sorted nonempty list is at least the head key. -/
theorem keys_lower {e : Key × Value} {es : List (Key × Value)}
    (hs : (e :: es).Pairwise (fun a b => a.1 < b.1)) :
    ∀ x ∈ (e :: es).map Prod.fst, e.1 ≤ x := by
  intro x hx
  rcases List.mem_map.1 hx with ⟨p, hp, rfl⟩
  rcases List.mem_cons.1 hp with rfl | hp
  · exact le_refl _
  · exact le_of_lt ((List.pairwise_cons.1 hs).1 p hp)

theorem landingGo_found {k : Key} {v : Value} {cur : Key × Value} {l : List (Key × Value)}
    (hs : (cur :: l).Pairwise (fun a b => a.1 < b.1)) (hcur : cur.1 ≤ k)
    (hmem : (k, v) ∈ cur :: l) : landingGo k cur l = (k, v) := by
  induction l generalizing cur with
  | nil =>
      simp only [landingGo]
      exact (List.mem_singleton.1 hmem).symm
  | cons e es ih =>
      rcases List.pairwise_cons.1 hs with ⟨hlt, hs'⟩
      by_cases h : e.1 ≤ k
      · simp only [landingGo, if_pos h]
        have hmem' : (k, v) ∈ e :: es := by
          rcases List.mem_cons.1 hmem with rfl | hmem'
          · exact absurd (lt_of_lt_of_le (hlt e (List.mem_cons_self e es)) h)
              (lt_irrefl _)
          · exact hmem'
        exact ih hs' h hmem'
      · simp only [landingGo, if_neg h]
        rcases List.mem_cons.1 hmem with rfl | hmem'
        · rfl
        · exact absurd (keys_lower hs' _ (List.mem_map.2 ⟨(k, v), hmem', rfl⟩)) h

theorem landing_found {k : Key} {v : Value} {l : List (Key × Value)}
    (hs : l.Pairwise (fun a b => a.1 < b.1)) (hmem : (k, v) ∈ l) :
    landing k l = some (k, v) := by
  cases l with
  | nil => cases hmem
  | cons e es =>
      have he : e.1 ≤ k := keys_lower hs _ (List.mem_map.2 ⟨(k, v), hmem, rfl⟩)
      simp only [landing, if_pos he]
      rw [landingGo_found hs he hmem]

theorem landing_key_mem {k : Key} {l : List (Key × Value)} {e : Key × Value}
    (h : landing k l = some e) : e ∈ l := by
  cases l with
  | nil => simp [landing] at h
  | cons e' es =>
      by_cases h' : e'.1 ≤ k
      · simp only [landing, if_pos h', Option.some.injEq] at h
        exact h ▸ landingGo_mem k e' es
      · simp [landing, if_neg h'] at h

theorem keyFound_iff {k : Key} {l : List (Key × Value)}
    (hs : l.Pairwise (fun a b => a.1 < b.1)) :
    keyFound k l = true ↔ k ∈ l.map Prod.fst := by
  constructor
  · intro h
    unfold keyFound at h
    rcases he : landing k l with _ | e
    · rw [he] at h; cases h
    · rw [he] at h
      have : e.1 = k := of_decide_eq_true h
      exact this ▸ List.mem_map.2 ⟨e, landing_key_mem he, rfl⟩
  · intro h
    rcases List.mem_map.1 h with ⟨e, he, rfl⟩
    have : landing e.1 l = some (e.1, e.2) := landing_found hs he
    unfold keyFound
    rw [this]
    simp

theorem find_eq_some {k : Key} {v : Value} {s : SkipList Key Value}
    (hs : s.layer0.Pairwise (fun a b => a.1 < b.1)) (hmem : (k, v) ∈ s.layer0) :
    find k s = some v := by
  unfold find
  rw [landing_found hs hmem]
  simp

theorem find_eq_none {k : Key} {s : SkipList Key Value}
    (hk : k ∉ s.layer0.map Prod.fst) : find k s = none := by
  unfold find
  rcases he : landing k s.layer0 with _ | e
  · rfl
  · have : e.1 ≠ k := fun h =>
      hk (h ▸ List.mem_map.2 ⟨e, landing_key_mem he, rfl⟩)
    simp [this]

end SkipList

namespace SkipList

variable {Key Value : Type} [LinearOrder Key]

/-! ### Characterising the ordered-navigation walks on sorted lists -/

/-- In a strictly sorted list, the last element bounds every element. -/
theorem sorted_le_getLast {l : List Key} {p : Key}
    (hs : l.Pairwise (· < ·)) (hp : l.getLast? = some p) :
    ∀ x ∈ l, x ≤ p := by
  induction l with
  | nil => cases hp
  | cons e es ih =>
      intro x hx
      cases es with
      | nil =>
          simp only [List.getLast?_singleton, Option.some.injEq] at hp
          rcases List.mem_singleton.1 hx with rfl
          exact le_of_eq hp
      | cons e' es' =>
          have hp' : (e' :: es').getLast? = some p := by
            rw [← hp, List.getLast?_cons_cons]
          rcases List.mem_cons.1 hx with rfl | hx'
          · have he' : e' ≤ p := ih (List.pairwise_cons.1 hs).2 hp' e'
              (List.mem_cons_self _ _)
            exact le_trans (le_of_lt ((List.pairwise_cons.1 hs).1 e'
              (List.mem_cons_self _ _))) he'
          · exact ih (List.pairwise_cons.1 hs).2 hp' x hx'

theorem nextKeyGo_some {k kn : Key} {cur : Key × Value} {l : List (Key × Value)}
    (hs : (cur :: l).Pairwise (fun a b => a.1 < b.1)) (hcur : cur.1 ≤ k)
    (h : nextKeyGo k cur l = some kn) :
    k ∈ (cur :: l).map Prod.fst ∧ kn ∈ (cur :: l).map Prod.fst ∧ k < kn ∧
      ∀ x ∈ (cur :: l).map Prod.fst, k < x → kn ≤ x := by
  induction l generalizing cur with
  | nil => cases h
  | cons e es ih =>
      rcases List.pairwise_cons.1 hs with ⟨hlt, hs'⟩
      by_cases h1 : e.1 ≤ k
      · rw [nextKeyGo, if_pos h1] at h
        obtain ⟨hk, hkn, hlt', hbd⟩ := ih hs' h1 h
        refine ⟨List.mem_cons_of_mem _ hk, List.mem_cons_of_mem _ hkn, hlt', ?_⟩
        intro x hx hkx
        rcases List.mem_cons.1 hx with rfl | hx'
        · exact absurd (lt_of_le_of_lt hcur hkx) (lt_irrefl _)
        · exact hbd x hx' hkx
      · rw [nextKeyGo, if_neg h1] at h
        by_cases h2 : cur.1 = k
        · rw [if_pos h2] at h
          obtain rfl : e.1 = kn := Option.some.inj h
          refine ⟨List.mem_map.2 ⟨cur, List.mem_cons_self _ _, h2⟩,
            List.mem_map.2 ⟨e, List.mem_cons_of_mem _ (List.mem_cons_self _ _), rfl⟩,
            not_le.1 h1, ?_⟩
          intro x hx hkx
          rw [List.map_cons] at hx
          rcases List.mem_cons.1 hx with rfl | hx'
          · exact absurd h2 (ne_of_gt hkx)
          · exact keys_lower hs' x hx'
        · rw [if_neg h2] at h
          cases h

theorem nextKeyGo_none {k : Key} {cur : Key × Value} {l : List (Key × Value)}
    (hs : (cur :: l).Pairwise (fun a b => a.1 < b.1)) (hcur : cur.1 ≤ k)
    (h : nextKeyGo k cur l = none) :
    k ∉ (cur :: l).map Prod.fst ∨ ∀ x ∈ (cur :: l).map Prod.fst, x ≤ k := by
  induction l generalizing cur with
  | nil =>
      right
      intro x hx
      rcases List.mem_singleton.1 (by simpa using hx) with rfl
      exact hcur
  | cons e es ih =>
      rcases List.pairwise_cons.1 hs with ⟨hlt, hs'⟩
      by_cases h1 : e.1 ≤ k
      · rw [nextKeyGo, if_pos h1] at h
        rcases ih hs' h1 h with h' | h'
        · left
          intro hk
          rcases List.mem_map.1 hk with ⟨p, hp, hpk⟩
          rcases List.mem_cons.1 hp with rfl | hp'
          · exact absurd hpk
              (ne_of_lt (lt_of_lt_of_le (hlt e (List.mem_cons_self _ _)) h1))
          · exact h' (List.mem_map.2 ⟨p, hp', hpk⟩)
        · right
          intro x hx
          rcases List.mem_cons.1 hx with rfl | hx'
          · exact hcur
          · exact h' x hx'
      · rw [nextKeyGo, if_neg h1] at h
        by_cases h2 : cur.1 = k
        · rw [if_pos h2] at h
          cases h
        · left
          intro hk
          rcases List.mem_map.1 hk with ⟨p, hp, hpk⟩
          rcases List.mem_cons.1 hp with rfl | hp'
          · exact h2 hpk
          · exact absurd (le_trans (keys_lower hs' p.1 (List.mem_map.2 ⟨p, hp', rfl⟩))
              (le_of_eq hpk)) h1

/-- The last element of a list with `getLast? = some p` is a member. -/
theorem mem_of_getLast?_eq {l : List Key} {p : Key} (h : l.getLast? = some p) :
    p ∈ l := by
  rcases List.mem_getLast?_eq_getLast (l := l) (x := p) (Option.mem_def.2 h)
    with ⟨hne, hp⟩
  rw [hp]
  exact List.getLast_mem hne

theorem previousKeyGo_some {k kp : Key} {prev : Option Key} {cur : Key × Value}
    {l : List (Key × Value)} {pre : List Key}
    (hprev : prev = pre.getLast?)
    (hs : (pre ++ (cur :: l).map Prod.fst).Pairwise (· < ·)) (hcur : cur.1 ≤ k)
    (h : previousKeyGo k prev cur l = some kp) :
    k ∈ pre ++ (cur :: l).map Prod.fst ∧ kp ∈ pre ++ (cur :: l).map Prod.fst ∧ kp < k ∧
      ∀ x ∈ pre ++ (cur :: l).map Prod.fst, x < k → x ≤ kp := by
  induction l generalizing cur pre prev with
  | nil =>
      rw [previousKeyGo] at h
      by_cases h2 : cur.1 = k
      · rw [if_pos h2] at h
        have hkp : pre.getLast? = some kp := by rw [← hprev, h]
        have hpre_lt : ∀ x ∈ pre, x < cur.1 := by
          intro x hx
          exact (List.pairwise_append.1 hs).2.2 x hx cur.1 (by simp)
        have hkp_mem : kp ∈ pre := mem_of_getLast?_eq hkp
        refine ⟨List.mem_append.2 (Or.inr (by simp [h2])),
          List.mem_append.2 (Or.inl hkp_mem), h2 ▸ hpre_lt kp hkp_mem, ?_⟩
        intro x hx hxk
        rcases List.mem_append.1 hx with hx' | hx'
        · exact sorted_le_getLast (List.pairwise_append.1 hs).1 hkp x hx'
        · rcases List.mem_singleton.1 (by simpa using hx') with rfl
          exact absurd h2 (ne_of_lt hxk)
      · rw [if_neg h2] at h
        cases h
  | cons e es ih =>
      rw [previousKeyGo] at h
      by_cases h1 : e.1 ≤ k
      · rw [if_pos h1] at h
        have hs2 : ((pre ++ [cur.1]) ++ (e :: es).map Prod.fst).Pairwise (· < ·) := by
          simpa [List.append_assoc] using hs
        have hprev2 : some cur.1 = (pre ++ [cur.1]).getLast? := by
          rw [List.getLast?_concat]
        obtain ⟨hk, hkp, hlt', hbd⟩ := ih hprev2 hs2 h1 h
        have hset : (pre ++ [cur.1]) ++ (e :: es).map Prod.fst
            = pre ++ (cur :: e :: es).map Prod.fst := by
          simp [List.append_assoc]
        rw [hset] at hk hkp hbd
        exact ⟨hk, hkp, hlt', hbd⟩
      · rw [if_neg h1] at h
        by_cases h2 : cur.1 = k
        · rw [if_pos h2] at h
          have hkp : pre.getLast? = some kp := by rw [← hprev, h]
          have hsplit := List.pairwise_append.1 hs
          have hpre_lt : ∀ x ∈ pre, x < cur.1 := by
            intro x hx
            exact hsplit.2.2 x hx cur.1 (by simp)
          have hkp_mem : kp ∈ pre := mem_of_getLast?_eq hkp
          have hpairs : (cur :: e :: es).Pairwise (fun a b => a.1 < b.1) :=
            List.pairwise_map.1 hsplit.2.1
          refine ⟨List.mem_append.2 (Or.inr (by simp [h2])),
            List.mem_append.2 (Or.inl hkp_mem), h2 ▸ hpre_lt kp hkp_mem, ?_⟩
          intro x hx hxk
          rcases List.mem_append.1 hx with hx' | hx'
          · exact sorted_le_getLast hsplit.1 hkp x hx'
          · rw [List.map_cons] at hx'
            rcases List.mem_cons.1 hx' with rfl | h3
            · exact absurd h2 (ne_of_lt hxk)
            · have hxe : e.1 ≤ x :=
                keys_lower (List.pairwise_cons.1 hpairs).2 x h3
              exact absurd (le_of_lt (lt_of_le_of_lt hxe hxk)) h1
        · rw [if_neg h2] at h
          cases h

end SkipList

namespace SkipList

variable {Key Value : Type} [LinearOrder Key]

theorem previousKeyGo_none {k : Key} {prev : Option Key} {cur : Key × Value}
    {l : List (Key × Value)} {pre : List Key}
    (hprev : prev = pre.getLast?)
    (hs : (pre ++ (cur :: l).map Prod.fst).Pairwise (· < ·)) (hcur : cur.1 ≤ k)
    (h : previousKeyGo k prev cur l = none) :
    k ∉ pre ++ (cur :: l).map Prod.fst ∨ ∀ x ∈ pre ++ (cur :: l).map Prod.fst, k ≤ x := by
  induction l generalizing cur pre prev with
  | nil =>
      rw [previousKeyGo] at h
      by_cases h2 : cur.1 = k
      · rw [if_pos h2] at h
        have hpre : pre = [] := by
          cases hpre' : pre with
          | nil => rfl
          | cons a as =>
              rw [hprev, hpre'] at h
              simp at h
        right
        intro x hx
        rw [hpre] at hx
        rcases List.mem_singleton.1 (by simpa using hx) with rfl
        exact le_of_eq h2.symm
      · rw [if_neg h2] at h
        left
        intro hk
        have hpre_lt : ∀ x ∈ pre, x < cur.1 := by
          intro x hx
          exact (List.pairwise_append.1 hs).2.2 x hx cur.1 (by simp)
        rcases List.mem_append.1 hk with hk' | hk'
        · exact absurd hcur (not_le.2 (hpre_lt k hk'))
        · exact h2 (List.mem_singleton.1 (by simpa using hk')).symm
  | cons e es ih =>
      rw [previousKeyGo] at h
      by_cases h1 : e.1 ≤ k
      · rw [if_pos h1] at h
        have hs2 : ((pre ++ [cur.1]) ++ (e :: es).map Prod.fst).Pairwise (· < ·) := by
          simpa [List.append_assoc] using hs
        have hprev2 : some cur.1 = (pre ++ [cur.1]).getLast? := by
          rw [List.getLast?_concat]
        have hset : (pre ++ [cur.1]) ++ (e :: es).map Prod.fst
            = pre ++ (cur :: e :: es).map Prod.fst := by
          simp [List.append_assoc]
        rcases ih hprev2 hs2 h1 h with h' | h'
        · left
          exact hset ▸ h'
        · right
          exact hset ▸ h'
      · rw [if_neg h1] at h
        have hsplit := List.pairwise_append.1 hs
        have hpairs : (cur :: e :: es).Pairwise (fun a b => a.1 < b.1) :=
          List.pairwise_map.1 hsplit.2.1
        by_cases h2 : cur.1 = k
        · rw [if_pos h2] at h
          have hpre : pre = [] := by
            cases hpre' : pre with
            | nil => rfl
            | cons a as =>
                rw [hprev, hpre'] at h
                simp at h
          right
          intro x hx
          rw [hpre, List.nil_append, List.map_cons] at hx
          rcases List.mem_cons.1 hx with rfl | hx'
          · exact le_of_eq h2.symm
          · have hxe : e.1 ≤ x :=
              keys_lower (List.pairwise_cons.1 hpairs).2 x hx'
            exact le_trans (le_of_lt (not_le.1 h1)) hxe
        · rw [if_neg h2] at h
          left
          intro hk
          have hpre_lt : ∀ x ∈ pre, x < cur.1 := by
            intro x hx
            exact hsplit.2.2 x hx cur.1 (by simp)
          rcases List.mem_append.1 hk with hk' | hk'
          · exact absurd hcur (not_le.2 (hpre_lt k hk'))
          · rw [List.map_cons] at hk'
            rcases List.mem_cons.1 hk' with h3 | h3
            · exact h2 h3.symm
            · have hke : e.1 ≤ k :=
                keys_lower (List.pairwise_cons.1 hpairs).2 k h3
              exact h1 hke

/-- Full characterisation of `nextKey` on a state with a sorted layer 0:
it throws exactly when the key is absent or is the largest key, and any
returned key is the immediate successor among the present keys. -/
theorem nextKey_spec {k : Key} {s : SkipList Key Value}
    (hs : s.layer0.Pairwise (fun a b => a.1 < b.1)) :
    (nextKey k s = none ↔
        k ∉ s.layer0.map Prod.fst ∨ ∀ x ∈ s.layer0.map Prod.fst, x ≤ k) ∧
    (∀ kn, nextKey k s = some kn →
        k ∈ s.layer0.map Prod.fst ∧ kn ∈ s.layer0.map Prod.fst ∧ k < kn ∧
          ∀ x ∈ s.layer0.map Prod.fst, k < x → kn ≤ x) := by
  cases hl : s.layer0 with
  | nil =>
      have h0 : nextKey k s = none := by
        rw [nextKey, hl]
      refine ⟨?_, ?_⟩
      · simp [h0, hl]
      · intro kn h
        rw [h0] at h
        cases h
  | cons e es =>
      rw [hl] at hs
      have h0 : nextKey k s = if e.1 ≤ k then nextKeyGo k e es else none := by
        rw [nextKey, hl]
      by_cases h1 : e.1 ≤ k
      · rw [if_pos h1] at h0
        refine ⟨⟨?_, ?_⟩, ?_⟩
        · intro h
          rw [h0] at h
          exact nextKeyGo_none hs h1 h
        · intro h
          rcases hn : nextKey k s with _ | kn
          · rfl
          · rw [h0] at hn
            obtain ⟨hk, hkn, hlt', hbd⟩ := nextKeyGo_some hs h1 hn
            rcases h with h | h
            · exact absurd hk h
            · exact absurd hlt' (not_lt.2 (h kn hkn))
        · intro kn h
          rw [h0] at h
          exact nextKeyGo_some hs h1 h
      · rw [if_neg h1] at h0
        have habs : k ∉ (e :: es).map Prod.fst := by
          intro hk
          exact h1 (keys_lower hs k hk)
        refine ⟨⟨fun _ => Or.inl habs, fun _ => h0⟩, ?_⟩
        intro kn h
        rw [h0] at h
        cases h
/-- Full characterisation of `previousKey` on a state with a sorted
layer 0: it throws exactly when the key is absent or is the smallest
key, and any returned key is the immediate predecessor among the
present keys. -/
theorem previousKey_spec {k : Key} {s : SkipList Key Value}
    (hs : s.layer0.Pairwise (fun a b => a.1 < b.1)) :
    (previousKey k s = none ↔
        k ∉ s.layer0.map Prod.fst ∨ ∀ x ∈ s.layer0.map Prod.fst, k ≤ x) ∧
    (∀ kp, previousKey k s = some kp →
        k ∈ s.layer0.map Prod.fst ∧ kp ∈ s.layer0.map Prod.fst ∧ kp < k ∧
          ∀ x ∈ s.layer0.map Prod.fst, x < k → x ≤ kp) := by
  cases hl : s.layer0 with
  | nil =>
      have h0 : previousKey k s = none := by
        rw [previousKey, hl]
      refine ⟨?_, ?_⟩
      · simp [h0, hl]
      · intro kp h
        rw [h0] at h
        cases h
  | cons e es =>
      rw [hl] at hs
      have h0 : previousKey k s = if e.1 ≤ k then previousKeyGo k none e es else none := by
        rw [previousKey, hl]
      have hs' : (([] : List Key) ++ (e :: es).map Prod.fst).Pairwise (· < ·) := by
        simpa using List.pairwise_map.2 hs
      by_cases h1 : e.1 ≤ k
      · rw [if_pos h1] at h0
        refine ⟨⟨?_, ?_⟩, ?_⟩
        · intro h
          rw [h0] at h
          rcases previousKeyGo_none rfl hs' h1 h with h' | h'
          · left
            simpa using h'
          · right
            intro x hx
            exact h' x (by simpa using hx)
        · intro h
          rcases hn : previousKey k s with _ | kp
          · rfl
          · rw [h0] at hn
            obtain ⟨hk, hkp, hlt', hbd⟩ := previousKeyGo_some rfl hs' h1 hn
            rcases h with h | h
            · exact absurd (by simpa using hk) h
            · exact absurd hlt' (not_lt.2 (h kp (by simpa using hkp)))
        · intro kp h
          rw [h0] at h
          obtain ⟨hk, hkp, hlt', hbd⟩ := previousKeyGo_some rfl hs' h1 h
          refine ⟨by simpa using hk, by simpa using hkp, hlt', ?_⟩
          intro x hx hxk
          exact hbd x (by simpa using hx) hxk
      · rw [if_neg h1] at h0
        have habs : k ∉ (e :: es).map Prod.fst := by
          intro hk
          exact h1 (keys_lower hs k hk)
        refine ⟨⟨fun _ => Or.inl habs, fun _ => h0⟩, ?_⟩
        intro kp h
        rw [h0] at h
        cases h

end SkipList

/-! ### List index and prefix helpers for the layer-array reasoning -/

theorem getD_set_self {α : Type} (l : List α) (i : Nat) (a d : α) (h : i < l.length) :
    (l.set i a).getD i d = a := by
  simp [List.getD_eq_getElem?_getD, List.getElem?_set_self, h]

theorem getD_set_ne {α : Type} (l : List α) {i j : Nat} (a d : α) (h : i ≠ j) :
    (l.set i a).getD j d = l.getD j d := by
  simp [List.getD_eq_getElem?_getD, List.getElem?_set_ne h]

theorem getLast?_set_of_lt {α : Type} (l : List α) (i : Nat) (a : α)
    (h : i + 1 < l.length) : (l.set i a).getLast? = l.getLast? := by
  rw [List.getLast?_eq_getElem?, List.getLast?_eq_getElem?]
  simp [List.getElem?_set_ne (by omega : i ≠ l.length - 1)]

theorem getD_concat {α : Type} (l : List α) (j : Nat) (d : α) :
    (l ++ [d]).getD j d = l.getD j d := by
  induction l generalizing j with
  | nil => cases j <;> simp [List.getD]
  | cons a as ih =>
      cases j with
      | zero => rfl
      | succ j => simpa using ih j

theorem length_takeWhile_eq {α : Type} (p : α → Bool) (us : List α) (n : Nat) (d : α)
    (h1 : ∀ j, j < n → p (us.getD j d) = true)
    (h2 : n < us.length) (h3 : p (us.getD n d) = false) :
    (us.takeWhile p).length = n := by
  induction us generalizing n with
  | nil => simp at h2
  | cons u us ih =>
      cases n with
      | zero =>
          have hu : p u = false := by simpa using h3
          simp [List.takeWhile_cons, hu]
      | succ n =>
          have hu : p u = true := by simpa using h1 0 (Nat.succ_pos n)
          have hrest : (us.takeWhile p).length = n := by
            refine ih n (fun j hj => ?_) (by simpa using h2) (by simpa using h3)
            simpa using h1 (j + 1) (by omega)
          simp [List.takeWhile_cons, hu, hrest]

namespace SkipList

variable {Key Value : Type} [LinearOrder Key]

theorem maxFlips_pos (n : Nat) : 1 ≤ maxFlips n := by
  unfold maxFlips
  by_cases h : n ≤ 16
  · simp [h]
  · rw [if_neg h]
    have := Nat.clog_pos (b := 2) (by norm_num) (by omega : 1 < n)
    omega

/-- The full invariant of the promotion loop, by induction on the fuel.
Starting from a layer array `up` whose counter `L` is maintained
(`L = up.length + 1`), whose top layer is empty and sits at least two
above the current flip index, in which `k` occupies exactly the layers
below index `h`, the loop: keeps the counter maintained, keeps the top
layer empty and at least two above the final flip index, leaves `k`
occupying exactly the layers below the final flip index, touches no
other key's occupancies, grows the counter monotonically and by at most
the number of promotions performed, never decreases the flip index,
caps the final flip index below `max_flips` (unless no iteration ran),
and preserves sortedness of every layer. -/
theorem promoteLoop_spec (coin : Key → Nat → Bool) (k : Key) (mf : Nat) :
    ∀ (fuel h : Nat) (up : List (List Key)) (L : Nat)
      (upF : List (List Key)) (LF hF : Nat),
      promoteLoop coin k mf fuel h up L = (upF, LF, hF) →
      L = up.length + 1 →
      h + 2 ≤ L →
      up.getLast? = some [] →
      (∀ j, k ∈ up.getD j [] ↔ j < h) →
      (∀ j, (up.getD j []).Pairwise (· < ·)) →
      LF = upF.length + 1 ∧
      hF + 2 ≤ LF ∧
      upF.getLast? = some [] ∧
      (∀ j, k ∈ upF.getD j [] ↔ j < hF) ∧
      (∀ x, x ≠ k → ∀ j, (x ∈ upF.getD j [] ↔ x ∈ up.getD j [])) ∧
      L ≤ LF ∧ LF + h ≤ L + hF ∧
      h ≤ hF ∧ (hF + 1 ≤ mf ∨ hF = h) ∧
      (∀ j, (upF.getD j []).Pairwise (· < ·)) := by
  intro fuel
  induction fuel with
  | zero =>
      intro h up L upF LF hF heq h1 h2 h3 h4 h5
      rw [promoteLoop] at heq
      cases heq
      exact ⟨h1, h2, h3, h4, fun x hx j => Iff.rfl, le_refl _, le_refl _,
        le_refl _, Or.inr rfl, h5⟩
  | succ fuel ih =>
      intro h up L upF LF hF heq h1 h2 h3 h4 h5
      rw [promoteLoop] at heq
      by_cases hg : (coin k h && decide (h + 1 < mf)) = true
      · rw [if_pos hg] at heq
        have hmf : h + 1 < mf := by
          have hg' := hg
          simp only [Bool.and_eq_true, decide_eq_true_eq] at hg'
          exact hg'.2
        have hknot : k ∉ up.getD h [] := fun hc => by
          have := (h4 h).1 hc
          omega
        by_cases hgrow : L ≤ h + 2
        · rw [if_pos hgrow] at heq
          have hLeq : L = h + 2 := le_antisymm hgrow h2
          have hlen : (up ++ [[]]).length = up.length + 1 := by simp
          have hhlt : h < (up ++ [[]]).length := by
            rw [hlen]; omega
          have hgd : ∀ j, (up ++ [[]]).getD j ([] : List Key) = up.getD j [] :=
            fun j => getD_concat up j []
          obtain ⟨c1, c2, c3, c4, c5, c6, c7, c8, c9, c10⟩ :=
            ih (h + 1) _ (L + 1) upF LF hF heq
              (by simp [hlen]; omega)
              (by omega)
              (by
                rw [getLast?_set_of_lt _ _ _ (by rw [hlen]; omega)]
                exact List.getLast?_concat _)
              (by
                intro j
                by_cases hj : h = j
                · subst hj
                  rw [getD_set_self _ _ _ _ hhlt]
                  simp [mem_insertUpper]
                · rw [getD_set_ne _ _ _ hj, hgd j, h4 j]
                  omega)
              (by
                intro j
                by_cases hj : h = j
                · subst hj
                  rw [getD_set_self _ _ _ _ hhlt, hgd h]
                  exact insertUpper_sorted (h5 h) hknot
                · rw [getD_set_ne _ _ _ hj, hgd j]
                  exact h5 j)
          refine ⟨c1, c2, c3, c4, ?_, by omega, by omega, by omega,
            Or.inl (by omega), c10⟩
          intro x hx j
          rw [c5 x hx j]
          by_cases hj : h = j
          · subst hj
            rw [getD_set_self _ _ _ _ hhlt, hgd h]
            simp [mem_insertUpper, hx]
          · rw [getD_set_ne _ _ _ hj, hgd j]
        · rw [if_neg hgrow] at heq
          have hhlt : h < up.length := by omega
          obtain ⟨c1, c2, c3, c4, c5, c6, c7, c8, c9, c10⟩ :=
            ih (h + 1) _ L upF LF hF heq
              (by simp [h1])
              (by omega)
              (by
                rw [getLast?_set_of_lt _ _ _ (by omega)]
                exact h3)
              (by
                intro j
                by_cases hj : h = j
                · subst hj
                  rw [getD_set_self _ _ _ _ hhlt]
                  simp [mem_insertUpper]
                · rw [getD_set_ne _ _ _ hj, h4 j]
                  omega)
              (by
                intro j
                by_cases hj : h = j
                · subst hj
                  rw [getD_set_self _ _ _ _ hhlt]
                  exact insertUpper_sorted (h5 h) hknot
                · rw [getD_set_ne _ _ _ hj]
                  exact h5 j)
          refine ⟨c1, c2, c3, c4, ?_, by omega, by omega, by omega,
            Or.inl (by omega), c10⟩
          intro x hx j
          rw [c5 x hx j]
          by_cases hj : h = j
          · subst hj
            rw [getD_set_self _ _ _ _ hhlt]
            simp [mem_insertUpper, hx]
          · rw [getD_set_ne _ _ _ hj]
      · rw [if_neg hg] at heq
        cases heq
        exact ⟨h1, h2, h3, h4, fun x hx j => Iff.rfl, le_refl _, le_refl _,
          le_refl _, Or.inr rfl, h5⟩

end SkipList

namespace SkipList

variable {Key Value : Type} [LinearOrder Key]

/-! ### The representation invariant and its preservation -/

/-- Well-formedness of a reachable `SkipList` state: layer 0 is in
strictly ascending key order; every upper layer is sorted and only
holds keys that are present in layer 0; `num_layers` counts the layers
(`upper` plus layer 0); there are at least two layers; `num_keys`
counts the layer-0 nodes; the topmost layer holds no real key. -/
structure WF (s : SkipList Key Value) : Prop where
  sorted0 : s.layer0.Pairwise (fun a b => a.1 < b.1)
  sortedU : ∀ j, (s.upper.getD j []).Pairwise (· < ·)
  subkeys : ∀ j, ∀ x, x ∈ s.upper.getD j [] → x ∈ s.layer0.map Prod.fst
  layers_len : s.num_layers = s.upper.length + 1
  layers_ge : 2 ≤ s.num_layers
  keys_len : s.num_keys = s.layer0.length
  top_emp : s.upper.getLast? = some []

theorem WF_emptySkipList : WF (emptySkipList : SkipList Key Value) := by
  refine ⟨List.Pairwise.nil, ?_, ?_, rfl, le_refl _, rfl, rfl⟩
  · intro j
    cases j with
    | zero => exact List.Pairwise.nil
    | succ j => cases j <;> exact List.Pairwise.nil
  · intro j x hx
    cases j with
    | zero => cases hx
    | succ j => cases j <;> cases hx

theorem keyFound_eq_false {k : Key} {l : List (Key × Value)}
    (hs : l.Pairwise (fun a b => a.1 < b.1)) (hk : k ∉ l.map Prod.fst) :
    keyFound k l = false := by
  rcases hb : keyFound k l with _ | _
  · rfl
  · exact absurd ((keyFound_iff hs).1 hb) hk

theorem insert_found (coin : Key → Nat → Bool) (k : Key) (v : Value)
    {s : SkipList Key Value} (hf : keyFound k s.layer0 = true) :
    insert coin k v s = (false, s) := by
  rw [insert, if_pos hf]

/-- Height bookkeeping for one present key: `k` occupies exactly the
upper layers below index `hk`, and a `k`-free layer exists above, so
the `top`-chain above `k`'s layer-0 node has length `hk`. -/
def HeightInv (s : SkipList Key Value) (k : Key) (hk : Nat) : Prop :=
  (∀ j, k ∈ s.upper.getD j [] ↔ j < hk) ∧ hk < s.upper.length

/-- Everything the claims need about one successful (fresh-key) insert,
obtained from `promoteLoop_spec` at flip index 0. -/
theorem insert_fresh_spec (coin : Key → Nat → Bool) (k : Key) (v : Value)
    (s : SkipList Key Value) (hWF : WF s) (hfresh : k ∉ s.layer0.map Prod.fst) :
    (insert coin k v s).1 = true ∧
    (insert coin k v s).2.layer0 = insertEntry k v s.layer0 ∧
    (insert coin k v s).2.num_keys = s.num_keys + 1 ∧
    WF (insert coin k v s).2 ∧
    s.num_layers ≤ (insert coin k v s).2.num_layers ∧
    (insert coin k v s).2.num_layers ≤ s.num_layers + insertPromotions coin k s ∧
    HeightInv (insert coin k v s).2 k (insertPromotions coin k s) ∧
    insertPromotions coin k s + 1 ≤ maxFlips (s.num_keys + 1) ∧
    (∀ x, x ≠ k → ∀ j,
      (x ∈ (insert coin k v s).2.upper.getD j [] ↔ x ∈ s.upper.getD j [])) ∧
    s.upper.length ≤ (insert coin k v s).2.upper.length := by
  have hnf : keyFound k s.layer0 = false := keyFound_eq_false hWF.sorted0 hfresh
  rcases hpl : promoteLoop coin k (maxFlips (s.num_keys + 1)) (maxFlips (s.num_keys + 1))
      0 s.upper s.num_layers with ⟨up2, L2, h2⟩
  have hins : insert coin k v s =
      (true, { layer0 := insertEntry k v s.layer0,
               upper := up2, num_layers := L2, num_keys := s.num_keys + 1 }) := by
    rw [insert, if_neg (by rw [hnf]; exact Bool.false_ne_true), hpl]
  have hprom : insertPromotions coin k s = h2 := by
    rw [insertPromotions, if_neg (by rw [hnf]; exact Bool.false_ne_true), hpl]
  have hk0 : ∀ j, k ∈ s.upper.getD j [] ↔ j < 0 := by
    intro j
    constructor
    · intro hc
      exact absurd (hWF.subkeys j k hc) hfresh
    · omega
  obtain ⟨c1, c2, c3, c4, c5, c6, c7, c8, c9, c10⟩ :=
    promoteLoop_spec coin k (maxFlips (s.num_keys + 1))
      (maxFlips (s.num_keys + 1)) 0 s.upper s.num_layers up2 L2 h2 hpl
      hWF.layers_len (hWF.layers_ge) hWF.top_emp hk0 hWF.sortedU
  have hmfpos := maxFlips_pos (s.num_keys + 1)
  have hge : 2 ≤ s.num_layers := hWF.layers_ge
  have hll : s.num_layers = s.upper.length + 1 := hWF.layers_len
  have hcap : h2 + 1 ≤ maxFlips (s.num_keys + 1) := by
    rcases c9 with h | h <;> omega
  have hWF2 : WF (insert coin k v s).2 := by
    rw [hins]
    show WF { layer0 := insertEntry k v s.layer0, upper := up2,
              num_layers := L2, num_keys := s.num_keys + 1 }
    refine ⟨insertEntry_sorted hWF.sorted0 hfresh, c10, ?_, c1,
      by show 2 ≤ L2; omega,
      by show s.num_keys + 1 = (insertEntry k v s.layer0).length;
         rw [length_insertEntry, hWF.keys_len], c3⟩
    intro j x hx
    rw [map_fst_insertEntry]
    by_cases hxk : x = k
    · exact mem_insertUpper.2 (Or.inl hxk)
    · exact mem_insertUpper.2 (Or.inr (hWF.subkeys j x ((c5 x hxk j).1 hx)))
  refine ⟨by rw [hins], by rw [hins], by rw [hins], hWF2, ?_, ?_, ?_, ?_, ?_, ?_⟩
  · rw [hins]
    exact c6
  · rw [hins, hprom]
    show L2 ≤ s.num_layers + h2
    omega
  · rw [hins, hprom]
    show (∀ j, k ∈ up2.getD j [] ↔ j < h2) ∧ h2 < up2.length
    exact ⟨c4, by omega⟩
  · rw [hprom]
    exact hcap
  · intro x hx j
    rw [hins]
    exact c5 x hx j
  · rw [hins]
    show s.upper.length ≤ up2.length
    omega

theorem insert_WF (coin : Key → Nat → Bool) (k : Key) (v : Value)
    (s : SkipList Key Value) (hWF : WF s) : WF (insert coin k v s).2 := by
  rcases hb : keyFound k s.layer0 with _ | _
  · by_cases hfresh : k ∈ s.layer0.map Prod.fst
    · exact absurd ((keyFound_iff hWF.sorted0).2 hfresh) (by rw [hb]; simp)
    · exact (insert_fresh_spec coin k v s hWF hfresh).2.2.2.1
  · rw [insert_found coin k v hb]
    exact hWF

theorem insert_preserves_mem (coin : Key → Nat → Bool) (k2 : Key) (v2 : Value)
    (s : SkipList Key Value) {k : Key} (hmem : k ∈ s.layer0.map Prod.fst) :
    k ∈ (insert coin k2 v2 s).2.layer0.map Prod.fst := by
  rw [insert]
  by_cases hf : keyFound k2 s.layer0 = true
  · rw [if_pos hf]
    exact hmem
  · rw [if_neg hf]
    rcases hpl : promoteLoop coin k2 (maxFlips (s.num_keys + 1))
        (maxFlips (s.num_keys + 1)) 0 s.upper s.num_layers with ⟨up2, L2, h2⟩
    simp only [map_fst_insertEntry]
    exact mem_insertUpper.2 (Or.inr hmem)

theorem insert_preserves_heightInv (coin : Key → Nat → Bool) (k2 : Key) (v2 : Value)
    (s : SkipList Key Value) (hWF : WF s) {k : Key} {hk : Nat}
    (hmem : k ∈ s.layer0.map Prod.fst) (hinv : HeightInv s k hk) :
    HeightInv (insert coin k2 v2 s).2 k hk := by
  rcases hb : keyFound k2 s.layer0 with _ | _
  · have hfresh : k2 ∉ s.layer0.map Prod.fst := fun hc =>
      absurd ((keyFound_iff hWF.sorted0).2 hc) (by rw [hb]; simp)
    have hne : k ≠ k2 := fun hc => hfresh (hc ▸ hmem)
    obtain ⟨-, -, -, -, -, -, -, -, hothers, hlen⟩ :=
      insert_fresh_spec coin k2 v2 s hWF hfresh
    constructor
    · intro j
      rw [hothers k hne j]
      exact hinv.1 j
    · exact lt_of_lt_of_le hinv.2 hlen
  · rw [insert_found coin k2 v2 hb]
    exact hinv

/-- The height function evaluated through the `HeightInv` bookkeeping. -/
theorem height_eq_of_heightInv {k : Key} {s : SkipList Key Value} {hk : Nat}
    (hs : s.layer0.Pairwise (fun a b => a.1 < b.1))
    (hmem : k ∈ s.layer0.map Prod.fst) (hinv : HeightInv s k hk) :
    height k s = some (1 + hk) := by
  rcases List.mem_map.1 hmem with ⟨e, he, rfl⟩
  have hland : landing e.1 s.layer0 = some (e.1, e.2) := landing_found hs he
  have hlen : (s.upper.takeWhile (fun L => decide (e.1 ∈ L))).length = hk :=
    length_takeWhile_eq (fun L => decide (e.1 ∈ L)) s.upper hk []
      (fun j hj => decide_eq_true ((hinv.1 j).2 hj))
      hinv.2
      (decide_eq_false (fun hc => absurd ((hinv.1 hk).1 hc) (lt_irrefl hk)))
  rw [height, hland]
  simp [hlen]

end SkipList

namespace SkipList

variable {Key Value : Type} [LinearOrder Key]

/-! ### Sequences of insertions -/

theorem insertAll_nil (coin : Key → Nat → Bool) (s : SkipList Key Value) :
    insertAll coin [] s = s := rfl

theorem insertAll_cons (coin : Key → Nat → Bool) (e : Key × Value)
    (l : List (Key × Value)) (s : SkipList Key Value) :
    insertAll coin (e :: l) s = insertAll coin l (insert coin e.1 e.2 s).2 := rfl

theorem insertAll_append (coin : Key → Nat → Bool) (l1 l2 : List (Key × Value))
    (s : SkipList Key Value) :
    insertAll coin (l1 ++ l2) s = insertAll coin l2 (insertAll coin l1 s) := by
  simp [insertAll, List.foldl_append]

theorem insertAll_WF (coin : Key → Nat → Bool) (l : List (Key × Value)) :
    ∀ s : SkipList Key Value, WF s → WF (insertAll coin l s) := by
  induction l with
  | nil => intro s h; exact h
  | cons e l ih =>
      intro s h
      rw [insertAll_cons]
      exact ih _ (insert_WF coin e.1 e.2 s h)

theorem insertAll_preserves_mem (coin : Key → Nat → Bool) (l : List (Key × Value)) :
    ∀ (s : SkipList Key Value) {k : Key}, k ∈ s.layer0.map Prod.fst →
      k ∈ (insertAll coin l s).layer0.map Prod.fst := by
  induction l with
  | nil => intro s k h; exact h
  | cons e l ih =>
      intro s k h
      rw [insertAll_cons]
      exact ih _ (insert_preserves_mem coin e.1 e.2 s h)

theorem insertAll_preserves_heightInv (coin : Key → Nat → Bool)
    (l : List (Key × Value)) :
    ∀ (s : SkipList Key Value), WF s → ∀ {k : Key} {hk : Nat},
      k ∈ s.layer0.map Prod.fst → HeightInv s k hk →
      HeightInv (insertAll coin l s) k hk := by
  induction l with
  | nil => intro s _ k hk _ hinv; exact hinv
  | cons e l ih =>
      intro s hWF k hk hmem hinv
      rw [insertAll_cons]
      exact ih _ (insert_WF coin e.1 e.2 s hWF)
        (insert_preserves_mem coin e.1 e.2 s hmem)
        (insert_preserves_heightInv coin e.1 e.2 s hWF hmem hinv)

theorem insertAll_perm (coin : Key → Nat → Bool) (l : List (Key × Value)) :
    ∀ s : SkipList Key Value, WF s →
      (s.layer0.map Prod.fst ++ l.map Prod.fst).Nodup →
      ((insertAll coin l s).layer0.map Prod.fst).Perm
        (s.layer0.map Prod.fst ++ l.map Prod.fst) := by
  induction l with
  | nil =>
      intro s hWF hnd
      simp [insertAll_nil]
  | cons e l ih =>
      intro s hWF hnd
      rcases List.nodup_append.1 hnd with ⟨hnd1, hnd2, hdisj⟩
      have hfresh : e.1 ∉ s.layer0.map Prod.fst := fun hc =>
        hdisj hc (by simp)
      obtain ⟨-, hl0, -, hWF2, -, -, -, -, -, -⟩ :=
        insert_fresh_spec coin e.1 e.2 s hWF hfresh
      have hkeys2 : (insert coin e.1 e.2 s).2.layer0.map Prod.fst
          = insertUpper e.1 (s.layer0.map Prod.fst) := by
        rw [hl0, map_fst_insertEntry]
      have hperm2 : ((insert coin e.1 e.2 s).2.layer0.map Prod.fst).Perm
          (s.layer0.map Prod.fst ++ [e.1]) := by
        rw [hkeys2]
        exact (insertUpper_perm e.1 _).trans
          (List.perm_append_singleton e.1 _).symm
      have hassoc : (s.layer0.map Prod.fst ++ [e.1]) ++ l.map Prod.fst
          = s.layer0.map Prod.fst ++ (e :: l).map Prod.fst := by
        rw [List.append_assoc]
        rfl
      have hnd2' : ((insert coin e.1 e.2 s).2.layer0.map Prod.fst
          ++ l.map Prod.fst).Nodup := by
        refine ((hperm2.append_right (l.map Prod.fst)).symm).nodup ?_
        rw [hassoc]
        exact hnd
      rw [insertAll_cons]
      refine (ih _ hWF2 hnd2').trans ?_
      refine (hperm2.append_right (l.map Prod.fst)).trans ?_
      rw [hassoc]

theorem insertPromotions_found (coin : Key → Nat → Bool) (k : Key)
    {s : SkipList Key Value} (hf : keyFound k s.layer0 = true) :
    insertPromotions coin k s = 0 := by
  rw [insertPromotions, if_pos hf]

theorem insert_numLayers_bounds (coin : Key → Nat → Bool) (k : Key) (v : Value)
    (s : SkipList Key Value) (hWF : WF s) :
    s.num_layers ≤ (insert coin k v s).2.num_layers ∧
    (insert coin k v s).2.num_layers ≤ s.num_layers + insertPromotions coin k s := by
  rcases hb : keyFound k s.layer0 with _ | _
  · have hfresh : k ∉ s.layer0.map Prod.fst := fun hc =>
      absurd ((keyFound_iff hWF.sorted0).2 hc) (by rw [hb]; simp)
    obtain ⟨-, -, -, -, m1, m2, -, -, -, -⟩ :=
      insert_fresh_spec coin k v s hWF hfresh
    exact ⟨m1, m2⟩
  · rw [insert_found coin k v hb, insertPromotions_found coin k hb]
    exact ⟨le_refl _, by show s.num_layers ≤ s.num_layers + 0; omega⟩

end SkipList

namespace SkipList

variable {Key Value : Type} [LinearOrder Key]

/-! ### The claims -/

/-- C1: the spec (and the header comments of `isSmallestKey` /
`isLargestKey`) require a NotFound failure whenever the queried key is
absent, including on the empty structure.  The implementation has no
throwing path at all: on the empty skip list it returns plain booleans
for the absent key `1`, and even returns `true` for the absent key `0`,
because the comparison reads the sentinel node's default-constructed
`Key()` field.  This theorem evaluates the code at those failing
inputs. -/
theorem claim_C1_eval :
    isSmallestKey (1 : Nat) (emptySkipList : SkipList Nat Nat) = false ∧
    isLargestKey (1 : Nat) (emptySkipList : SkipList Nat Nat) = false ∧
    isSmallestKey (0 : Nat) (emptySkipList : SkipList Nat Nat) = true ∧
    isLargestKey (0 : Nat) (emptySkipList : SkipList Nat Nat) = true := by
  decide

/-- C2: on a state whose layer 0 is sorted (true of every reachable
state) and already binds `k` to `v0`, `insert(k, v)` returns `false`
and leaves the structure unchanged, for every `v`; in particular
`find(k)` still yields `v0` and `size()` is unchanged. -/
theorem claim_C2 (coin : Key → Nat → Bool) (s : SkipList Key Value)
    (hs : s.layer0.Pairwise (fun a b => a.1 < b.1)) (k : Key) (v0 : Value)
    (hmem : (k, v0) ∈ s.layer0) (v : Value) :
    insert coin k v s = (false, s) ∧
    find k (insert coin k v s).2 = some v0 ∧
    size (insert coin k v s).2 = size s := by
  have hf : keyFound k s.layer0 = true :=
    (keyFound_iff hs).2 (List.mem_map.2 ⟨(k, v0), hmem, rfl⟩)
  have h1 := insert_found coin k v hf
  refine ⟨h1, ?_, ?_⟩
  · rw [h1]
    exact find_eq_some hs hmem
  · rw [h1]

theorem claim_C2_witness :
    ((insertAll flipCoin [((1 : Nat), (5 : Nat))] emptySkipList).layer0.Pairwise
      (fun a b => a.1 < b.1) ∧
     ((1 : Nat), (5 : Nat)) ∈ (insertAll flipCoin [((1 : Nat), (5 : Nat))]
       emptySkipList).layer0) ∧
    (insert flipCoin 1 99 (insertAll flipCoin [((1 : Nat), (5 : Nat))] emptySkipList) =
       (false, insertAll flipCoin [((1 : Nat), (5 : Nat))] emptySkipList) ∧
     find 1 (insert flipCoin 1 99 (insertAll flipCoin [((1 : Nat), (5 : Nat))]
       emptySkipList)).2 = some 5 ∧
     size (insert flipCoin 1 99 (insertAll flipCoin [((1 : Nat), (5 : Nat))]
       emptySkipList)).2 = size (insertAll flipCoin [((1 : Nat), (5 : Nat))]
       emptySkipList)) :=
  ⟨⟨by decide, by decide⟩,
   claim_C2 flipCoin _ (by decide) 1 5 (by decide) 99⟩

/-- C5: on a state whose layer 0 is sorted (true of every reachable
state), `nextKey(k)` fails with NotFound exactly when `k` is absent or
is the largest present key, and otherwise returns the immediately
larger present key; symmetrically, `previousKey(k)` fails exactly when
`k` is absent or is the smallest present key, and otherwise returns the
immediately smaller present key. -/
theorem claim_C5 (s : SkipList Key Value)
    (hs : s.layer0.Pairwise (fun a b => a.1 < b.1)) (k : Key) :
    (nextKey k s = none ↔ k ∉ allKeysInOrder s ∨
       (k ∈ allKeysInOrder s ∧ ∀ x ∈ allKeysInOrder s, x ≤ k)) ∧
    (∀ kn, nextKey k s = some kn → k ∈ allKeysInOrder s ∧ kn ∈ allKeysInOrder s ∧
       k < kn ∧ ∀ x ∈ allKeysInOrder s, k < x → kn ≤ x) ∧
    (previousKey k s = none ↔ k ∉ allKeysInOrder s ∨
       (k ∈ allKeysInOrder s ∧ ∀ x ∈ allKeysInOrder s, k ≤ x)) ∧
    (∀ kp, previousKey k s = some kp → k ∈ allKeysInOrder s ∧ kp ∈ allKeysInOrder s ∧
       kp < k ∧ ∀ x ∈ allKeysInOrder s, x < k → x ≤ kp) := by
  have hN := nextKey_spec (k := k) hs
  have hP := previousKey_spec (k := k) hs
  refine ⟨⟨?_, ?_⟩, hN.2, ⟨?_, ?_⟩, hP.2⟩
  · intro h
    rcases hN.1.1 h with h' | h'
    · exact Or.inl h'
    · by_cases hmem : k ∈ allKeysInOrder s
      · exact Or.inr ⟨hmem, h'⟩
      · exact Or.inl hmem
  · intro h
    rcases h with h' | h'
    · exact hN.1.2 (Or.inl h')
    · exact hN.1.2 (Or.inr h'.2)
  · intro h
    rcases hP.1.1 h with h' | h'
    · exact Or.inl h'
    · by_cases hmem : k ∈ allKeysInOrder s
      · exact Or.inr ⟨hmem, h'⟩
      · exact Or.inl hmem
  · intro h
    rcases h with h' | h'
    · exact hP.1.2 (Or.inl h')
    · exact hP.1.2 (Or.inr h'.2)

theorem claim_C5_witness :
    ((insertAll flipCoin [((1 : Nat), (0 : Nat)), (2, 0), (3, 0)]
        emptySkipList).layer0.Pairwise (fun a b => a.1 < b.1)) ∧
    ((nextKey 2 (insertAll flipCoin [((1 : Nat), (0 : Nat)), (2, 0), (3, 0)]
        emptySkipList) = none ↔
      2 ∉ allKeysInOrder (insertAll flipCoin [((1 : Nat), (0 : Nat)), (2, 0), (3, 0)]
        emptySkipList) ∨
      (2 ∈ allKeysInOrder (insertAll flipCoin [((1 : Nat), (0 : Nat)), (2, 0), (3, 0)]
        emptySkipList) ∧
       ∀ x ∈ allKeysInOrder (insertAll flipCoin [((1 : Nat), (0 : Nat)), (2, 0), (3, 0)]
        emptySkipList), x ≤ 2)) ∧
     (∀ kn, nextKey 2 (insertAll flipCoin [((1 : Nat), (0 : Nat)), (2, 0), (3, 0)]
        emptySkipList) = some kn →
       2 ∈ allKeysInOrder (insertAll flipCoin [((1 : Nat), (0 : Nat)), (2, 0), (3, 0)]
        emptySkipList) ∧
       kn ∈ allKeysInOrder (insertAll flipCoin [((1 : Nat), (0 : Nat)), (2, 0), (3, 0)]
        emptySkipList) ∧ 2 < kn ∧
       ∀ x ∈ allKeysInOrder (insertAll flipCoin [((1 : Nat), (0 : Nat)), (2, 0), (3, 0)]
        emptySkipList), 2 < x → kn ≤ x) ∧
     (previousKey 2 (insertAll flipCoin [((1 : Nat), (0 : Nat)), (2, 0), (3, 0)]
        emptySkipList) = none ↔
      2 ∉ allKeysInOrder (insertAll flipCoin [((1 : Nat), (0 : Nat)), (2, 0), (3, 0)]
        emptySkipList) ∨
      (2 ∈ allKeysInOrder (insertAll flipCoin [((1 : Nat), (0 : Nat)), (2, 0), (3, 0)]
        emptySkipList) ∧
       ∀ x ∈ allKeysInOrder (insertAll flipCoin [((1 : Nat), (0 : Nat)), (2, 0), (3, 0)]
        emptySkipList), 2 ≤ x)) ∧
     (∀ kp, previousKey 2 (insertAll flipCoin [((1 : Nat), (0 : Nat)), (2, 0), (3, 0)]
        emptySkipList) = some kp →
       2 ∈ allKeysInOrder (insertAll flipCoin [((1 : Nat), (0 : Nat)), (2, 0), (3, 0)]
        emptySkipList) ∧
       kp ∈ allKeysInOrder (insertAll flipCoin [((1 : Nat), (0 : Nat)), (2, 0), (3, 0)]
        emptySkipList) ∧ kp < 2 ∧
       ∀ x ∈ allKeysInOrder (insertAll flipCoin [((1 : Nat), (0 : Nat)), (2, 0), (3, 0)]
        emptySkipList), x < 2 → x ≤ kp)) :=
  ⟨by decide, claim_C5 _ (by decide) 2⟩

end SkipList

namespace SkipList

variable {Key Value : Type} [LinearOrder Key]

/-- The driver of the repository's `SimpleHeightsTest`: insert the
integer keys `0 .. n-1` in order (each with itself as value) into a
fresh skip list. -/
def sampleInserts (n : Nat) : SkipList Nat Nat :=
  insertAll flipCoin ((List.range n).map (fun i => (i, i))) emptySkipList

/-- C4: inserting keys 0..9 in ascending order yields the recorded
heights `[1,2,1,3,1,2,1,4,1,2]` (height queried after each insert);
then inserting key 255 (all fingerprint bits set) gives it height
exactly 12 and grows `numLayers()` to 13. -/
theorem claim_C4 :
    ((List.range 10).map (fun i => height i (sampleInserts (i + 1)))) =
      [some 1, some 2, some 1, some 3, some 1, some 2, some 1, some 4,
       some 1, some 2] ∧
    height 255 (insert flipCoin 255 255 (sampleInserts 10)).2 = some 12 ∧
    numLayers (insert flipCoin 255 255 (sampleInserts 10)).2 = 13 := by
  decide

/-- C7: after any sequence of inserts from the fresh structure,
`numLayers()` is at least 2 and the topmost layer holds no real key;
and one further `insert` call never decreases `numLayers()` and
increases it by at most the number of promotions that call performs. -/
theorem claim_C7 (coin : Key → Nat → Bool) (l : List (Key × Value))
    (k : Key) (v : Value) :
    2 ≤ numLayers (insertAll coin l emptySkipList) ∧
    (insertAll coin l emptySkipList).upper.getLast? = some [] ∧
    numLayers (insertAll coin l emptySkipList) ≤
      numLayers (insert coin k v (insertAll coin l emptySkipList)).2 ∧
    numLayers (insert coin k v (insertAll coin l emptySkipList)).2 ≤
      numLayers (insertAll coin l emptySkipList) +
        insertPromotions coin k (insertAll coin l emptySkipList) := by
  have hWF := insertAll_WF coin l emptySkipList WF_emptySkipList
  have hb := insert_numLayers_bounds coin k v _ hWF
  exact ⟨hWF.layers_ge, hWF.top_emp, hb.1, hb.2⟩

/-- If the deterministic coin comes up tails on the very first flip,
the promotion loop exits immediately, leaving everything unchanged. -/
theorem promoteLoop_coin_false (coin : Key → Nat → Bool) (k : Key) (mf h : Nat)
    (hc : coin k h = false) (fuel : Nat) (up : List (List Key)) (L : Nat) :
    promoteLoop coin k mf fuel h up L = (up, L, h) := by
  cases fuel with
  | zero => rw [promoteLoop]
  | succ fuel =>
      rw [promoteLoop]
      simp [hc]

/-- C10: a successful insert of a fresh key returns `true`, grows
`size()` by exactly one, and leaves `find` unchanged at every other
key (no existing binding is altered or removed). -/
theorem claim_C10 (coin : Key → Nat → Bool) (s : SkipList Key Value)
    (hWF : WF s) (k : Key) (v : Value) (hfresh : k ∉ allKeysInOrder s) :
    (insert coin k v s).1 = true ∧
    size (insert coin k v s).2 = size s + 1 ∧
    ∀ k2, k2 ≠ k → find k2 (insert coin k v s).2 = find k2 s := by
  obtain ⟨c1, c2, c3, hWF2, -, -, -, -, -, -⟩ :=
    insert_fresh_spec coin k v s hWF hfresh
  refine ⟨c1, c3, ?_⟩
  intro k2 hne
  by_cases hmem : k2 ∈ s.layer0.map Prod.fst
  · rcases List.mem_map.1 hmem with ⟨e, he, rfl⟩
    have hmem2 : e ∈ (insert coin k v s).2.layer0 := by
      rw [c2]
      exact mem_insertEntry.2 (Or.inr he)
    rw [show find e.1 (insert coin k v s).2 = some e.2 from
          find_eq_some hWF2.sorted0 hmem2,
        show find e.1 s = some e.2 from find_eq_some hWF.sorted0 he]
  · have hmem2 : k2 ∉ (insert coin k v s).2.layer0.map Prod.fst := by
      rw [c2, map_fst_insertEntry]
      intro hc
      rcases mem_insertUpper.1 hc with rfl | hc'
      · exact hne rfl
      · exact hmem hc'
    rw [find_eq_none hmem2, find_eq_none hmem]

theorem claim_C10_witness :
    (WF (sampleInserts 3) ∧ (5 : Nat) ∉ allKeysInOrder (sampleInserts 3)) ∧
    ((insert flipCoin 5 55 (sampleInserts 3)).1 = true ∧
     size (insert flipCoin 5 55 (sampleInserts 3)).2 = size (sampleInserts 3) + 1 ∧
     ∀ k2, k2 ≠ 5 → find k2 (insert flipCoin 5 55 (sampleInserts 3)).2 =
       find k2 (sampleInserts 3)) :=
  ⟨⟨insertAll_WF flipCoin _ emptySkipList WF_emptySkipList, by decide⟩,
   claim_C10 flipCoin (sampleInserts 3)
     (insertAll_WF flipCoin _ emptySkipList WF_emptySkipList) 5 55 (by decide)⟩

/-- Writing a new value `v2` through the `Value&` reference returned by
`find(k)`: the reference aliases the `value` field of the layer-0 node
for `k` (the node `find` locates), and all later `find` calls read that
same field, so the write replaces the value stored at key `k` in layer
0.  -/
def writeThrough (k : Key) (v2 : Value) (s : SkipList Key Value) :
    SkipList Key Value :=
  { s with layer0 := s.layer0.map (fun e => if e.1 = k then (e.1, v2) else e) }

theorem map_fst_writeThrough (k : Key) (v2 : Value) (s : SkipList Key Value) :
    (writeThrough k v2 s).layer0.map Prod.fst = s.layer0.map Prod.fst := by
  show (s.layer0.map (fun e => if e.1 = k then (e.1, v2) else e)).map Prod.fst
      = s.layer0.map Prod.fst
  rw [List.map_map]
  refine List.map_congr_left ?_
  intro e he
  by_cases h : e.1 = k
  · simp [h]
  · simp [h]

/-- C8: after inserting a fresh key `k` with value `v`, `find(k)`
returns `v`; and after writing `v2` through the reference `find(k)`
returns, a subsequent `find(k)` observes `v2`. -/
theorem claim_C8 (coin : Key → Nat → Bool) (s : SkipList Key Value)
    (hWF : WF s) (k : Key) (v v2 : Value) (hfresh : k ∉ allKeysInOrder s) :
    find k (insert coin k v s).2 = some v ∧
    find k (writeThrough k v2 (insert coin k v s).2) = some v2 := by
  obtain ⟨-, c2, -, hWF2, -, -, -, -, -, -⟩ :=
    insert_fresh_spec coin k v s hWF hfresh
  have hmem : (k, v) ∈ (insert coin k v s).2.layer0 := by
    rw [c2]
    exact mem_insertEntry.2 (Or.inl rfl)
  refine ⟨find_eq_some hWF2.sorted0 hmem, ?_⟩
  have hsorted : (writeThrough k v2 (insert coin k v s).2).layer0.Pairwise
      (fun a b => a.1 < b.1) := by
    refine List.pairwise_map.1 ?_
    rw [map_fst_writeThrough]
    exact List.pairwise_map.2 hWF2.sorted0
  have hmem2 : (k, v2) ∈ (writeThrough k v2 (insert coin k v s).2).layer0 := by
    show (k, v2) ∈ (insert coin k v s).2.layer0.map
      (fun e => if e.1 = k then (e.1, v2) else e)
    exact List.mem_map.2 ⟨(k, v), hmem, by simp⟩
  exact find_eq_some hsorted hmem2

theorem claim_C8_witness :
    (WF (sampleInserts 3) ∧ (7 : Nat) ∉ allKeysInOrder (sampleInserts 3)) ∧
    (find 7 (insert flipCoin 7 70 (sampleInserts 3)).2 = some 70 ∧
     find 7 (writeThrough 7 71 (insert flipCoin 7 70 (sampleInserts 3)).2) = some 71) :=
  ⟨⟨insertAll_WF flipCoin _ emptySkipList WF_emptySkipList, by decide⟩,
   claim_C8 flipCoin (sampleInserts 3)
     (insertAll_WF flipCoin _ emptySkipList WF_emptySkipList) 7 70 71 (by decide)⟩

/-- C9: the string overload of `flipCoin` reads `key[0]`, which on the
empty `std::string` is the null character, so the empty string's
fingerprint is 0 and every flip is tails; consequently inserting the
empty-string key (fresh) performs no promotions, leaves `numLayers()`
unchanged, and gives the key height 1.  Strings are modelled as their
byte lists, ordered lexicographically like `std::string`. -/
theorem claim_C9 {V : Type} (a : Nat) (v : V) (s : SkipList (List Nat) V)
    (hWF : WF s) (hfresh : ([] : List Nat) ∉ allKeysInOrder s) :
    flipCoinStr [] a = false ∧
    insertPromotions flipCoinStr [] s = 0 ∧
    numLayers (insert flipCoinStr [] v s).2 = numLayers s ∧
    height [] (insert flipCoinStr [] v s).2 = some 1 := by
  have hcoin : ∀ b, flipCoinStr [] b = false := by
    intro b
    simp [flipCoinStr]
  have hnf : keyFound ([] : List Nat) s.layer0 = false :=
    keyFound_eq_false hWF.sorted0 hfresh
  have hloop := promoteLoop_coin_false flipCoinStr [] (maxFlips (s.num_keys + 1))
    0 (hcoin 0) (maxFlips (s.num_keys + 1)) s.upper s.num_layers
  have hins : insert flipCoinStr [] v s =
      (true, { layer0 := insertEntry [] v s.layer0,
               upper := s.upper, num_layers := s.num_layers,
               num_keys := s.num_keys + 1 }) := by
    rw [insert, if_neg (by rw [hnf]; exact Bool.false_ne_true), hloop]
  have hprom : insertPromotions flipCoinStr [] s = 0 := by
    rw [insertPromotions, if_neg (by rw [hnf]; exact Bool.false_ne_true), hloop]
  refine ⟨hcoin a, hprom, by rw [hins]; rfl, ?_⟩
  have hWF2 := insert_WF flipCoinStr [] v s hWF
  have hmem : ([] : List Nat) ∈ (insert flipCoinStr [] v s).2.layer0.map Prod.fst := by
    rw [hins]
    show ([] : List Nat) ∈ (insertEntry [] v s.layer0).map Prod.fst
    rw [map_fst_insertEntry]
    exact mem_insertUpper.2 (Or.inl rfl)
  have hinv : HeightInv (insert flipCoinStr [] v s).2 [] 0 := by
    rw [hins]
    constructor
    · intro j
      constructor
      · intro hc
        exact absurd (hWF.subkeys j [] hc) hfresh
      · omega
    · show 0 < s.upper.length
      have h1 := hWF.layers_len
      have h2 := hWF.layers_ge
      omega
  have := height_eq_of_heightInv hWF2.sorted0 hmem hinv
  rw [this]

theorem claim_C9_witness :
    (WF (emptySkipList : SkipList (List Nat) Nat) ∧
     ([] : List Nat) ∉ allKeysInOrder (emptySkipList : SkipList (List Nat) Nat)) ∧
    (flipCoinStr [] 3 = false ∧
     insertPromotions flipCoinStr [] (emptySkipList : SkipList (List Nat) Nat) = 0 ∧
     numLayers (insert flipCoinStr [] (7 : Nat)
       (emptySkipList : SkipList (List Nat) Nat)).2 =
       numLayers (emptySkipList : SkipList (List Nat) Nat) ∧
     height [] (insert flipCoinStr [] (7 : Nat)
       (emptySkipList : SkipList (List Nat) Nat)).2 = some 1) :=
  ⟨⟨WF_emptySkipList, by decide⟩,
   claim_C9 3 7 emptySkipList WF_emptySkipList (by decide)⟩

end SkipList

namespace SkipList

variable {Key Value : Type} [LinearOrder Key]

/-- C6: after successfully inserting any finite list of distinct keys,
`allKeysInOrder()` is strictly ascending and holds exactly the inserted
keys; and the result is the same for any insertion order (any
permutation of the list). -/
theorem claim_C6 (coin : Key → Nat → Bool) (l l2 : List (Key × Value))
    (hnd : (l.map Prod.fst).Nodup) (hp : l2.Perm l) :
    List.Sorted (· < ·) (allKeysInOrder (insertAll coin l emptySkipList)) ∧
    (∀ k, k ∈ allKeysInOrder (insertAll coin l emptySkipList) ↔
       k ∈ l.map Prod.fst) ∧
    allKeysInOrder (insertAll coin l2 emptySkipList) =
      allKeysInOrder (insertAll coin l emptySkipList) := by
  have hWF1 := insertAll_WF coin l emptySkipList WF_emptySkipList
  have hWF2 := insertAll_WF coin l2 emptySkipList WF_emptySkipList
  have hperm1 : ((insertAll coin l emptySkipList).layer0.map Prod.fst).Perm
      (l.map Prod.fst) := by
    have := insertAll_perm coin l emptySkipList WF_emptySkipList
      (by simpa using hnd)
    simpa using this
  have hnd2 : (l2.map Prod.fst).Nodup := ((hp.map Prod.fst).nodup_iff).2 hnd
  have hperm2 : ((insertAll coin l2 emptySkipList).layer0.map Prod.fst).Perm
      (l2.map Prod.fst) := by
    have := insertAll_perm coin l2 emptySkipList WF_emptySkipList
      (by simpa using hnd2)
    simpa using this
  have hsorted1 : List.Sorted (· < ·)
      (allKeysInOrder (insertAll coin l emptySkipList)) :=
    List.pairwise_map.2 hWF1.sorted0
  have hsorted2 : List.Sorted (· < ·)
      (allKeysInOrder (insertAll coin l2 emptySkipList)) :=
    List.pairwise_map.2 hWF2.sorted0
  refine ⟨hsorted1, fun k => hperm1.mem_iff, ?_⟩
  haveI : IsAntisymm Key (· < ·) := ⟨fun a b h1 h2 => absurd h2 (lt_asymm h1)⟩
  exact List.eq_of_perm_of_sorted
    (hperm2.trans ((hp.map Prod.fst).trans hperm1.symm)) hsorted2 hsorted1

theorem claim_C6_witness :
    ((([((1 : Nat), (1 : Nat)), (2, 2)]).map Prod.fst).Nodup ∧
     ([((2 : Nat), (2 : Nat)), (1, 1)]).Perm [((1 : Nat), (1 : Nat)), (2, 2)]) ∧
    (List.Sorted (· < ·) (allKeysInOrder (insertAll flipCoin
       [((1 : Nat), (1 : Nat)), (2, 2)] emptySkipList)) ∧
     (∀ k, k ∈ allKeysInOrder (insertAll flipCoin
        [((1 : Nat), (1 : Nat)), (2, 2)] emptySkipList) ↔
        k ∈ ([((1 : Nat), (1 : Nat)), (2, 2)]).map Prod.fst) ∧
     allKeysInOrder (insertAll flipCoin [((2 : Nat), (2 : Nat)), (1, 1)]
       emptySkipList) =
       allKeysInOrder (insertAll flipCoin [((1 : Nat), (1 : Nat)), (2, 2)]
       emptySkipList)) :=
  ⟨⟨by decide, by decide⟩,
   claim_C6 flipCoin [((1 : Nat), (1 : Nat)), (2, 2)]
     [((2 : Nat), (2 : Nat)), (1, 1)] (by decide) (by decide)⟩

/-- C3: inserting a list of pairwise-distinct keys from the fresh
structure, the key at position `i` is inserted when the key count has
just become `i + 1`, so the cutoff computed for it is
`maxFlips (i + 1)` (12 when the count is at most 16, else
`3 * ceil(log2(count))`); the promotion loop then performs fewer than
`maxFlips (i + 1)` promotions, so in the final state the key's height
`h` satisfies `1 ≤ h ≤ maxFlips (i + 1)`. -/
theorem claim_C3 (coin : Key → Nat → Bool) (l : List (Key × Value))
    (hnd : (l.map Prod.fst).Nodup) (i : Nat) (hi : i < l.length) :
    ∃ hgt, height (l.get ⟨i, hi⟩).1 (insertAll coin l emptySkipList) = some hgt ∧
      1 ≤ hgt ∧ hgt ≤ maxFlips (i + 1) := by
  rw [List.get_eq_getElem]
  have hWF1 : WF (insertAll coin (l.take i) emptySkipList) :=
    insertAll_WF coin _ _ WF_emptySkipList
  have hnd_take : ((l.take i).map Prod.fst).Nodup := by
    refine List.Nodup.sublist ?_ hnd
    rw [List.map_take]
    exact List.take_sublist _ _
  have hperm1 : ((insertAll coin (l.take i) emptySkipList).layer0.map
      Prod.fst).Perm ((l.take i).map Prod.fst) := by
    have := insertAll_perm coin (l.take i) emptySkipList WF_emptySkipList
      (by simpa using hnd_take)
    simpa using this
  have hkeycount : (insertAll coin (l.take i) emptySkipList).num_keys = i := by
    have h1 : (insertAll coin (l.take i) emptySkipList).layer0.length
        = ((l.take i).map Prod.fst).length := by
      rw [← List.length_map (insertAll coin (l.take i) emptySkipList).layer0
        Prod.fst]
      exact hperm1.length_eq
    rw [hWF1.keys_len, h1, List.length_map, List.length_take]
    omega
  have hdrop : (l.map Prod.fst).drop i
      = (l[i]).1 :: ((l.drop (i + 1)).map Prod.fst) := by
    rw [← List.map_drop, List.drop_eq_getElem_cons hi, List.map_cons]
  have hfresh : (l[i]).1 ∉ (insertAll coin (l.take i)
      emptySkipList).layer0.map Prod.fst := by
    intro hc
    have hc1 : (l[i]).1 ∈ (l.map Prod.fst).take i := by
      rw [← List.map_take]
      exact hperm1.mem_iff.1 hc
    have hnodup := hnd
    rw [show l.map Prod.fst = (l.map Prod.fst).take i ++ (l.map Prod.fst).drop i
      from (List.take_append_drop _ _).symm] at hnodup
    rcases List.nodup_append.1 hnodup with ⟨-, -, hdisj⟩
    exact hdisj hc1 (by rw [hdrop]; exact List.mem_cons_self _ _)
  obtain ⟨-, c2, -, hWF2, -, -, hinv, hcap, -, -⟩ :=
    insert_fresh_spec coin (l[i]).1 (l[i]).2
      (insertAll coin (l.take i) emptySkipList) hWF1 hfresh
  rw [hkeycount] at hcap
  have hall : insertAll coin l emptySkipList
      = insertAll coin (l.drop (i + 1))
          (insert coin (l[i]).1 (l[i]).2
            (insertAll coin (l.take i) emptySkipList)).2 := by
    conv_lhs => rw [show l = l.take i ++ (l[i] :: l.drop (i + 1)) from by
      rw [← List.drop_eq_getElem_cons hi, List.take_append_drop]]
    rw [insertAll_append, insertAll_cons]
  have hmem2 : (l[i]).1 ∈ (insert coin (l[i]).1 (l[i]).2
      (insertAll coin (l.take i) emptySkipList)).2.layer0.map Prod.fst := by
    rw [c2, map_fst_insertEntry]
    exact mem_insertUpper.2 (Or.inl rfl)
  have hWF3 := insertAll_WF coin (l.drop (i + 1)) _ hWF2
  have hinv3 := insertAll_preserves_heightInv coin (l.drop (i + 1)) _ hWF2
    hmem2 hinv
  have hmem3 := insertAll_preserves_mem coin (l.drop (i + 1)) _ hmem2
  have hheight := height_eq_of_heightInv hWF3.sorted0 hmem3 hinv3
  refine ⟨1 + insertPromotions coin (l[i]).1
    (insertAll coin (l.take i) emptySkipList), ?_, by omega, by omega⟩
  rw [hall]
  exact hheight

theorem claim_C3_witness :
    ((([((5 : Nat), (0 : Nat)), (3, 0)]).map Prod.fst).Nodup ∧
     1 < ([((5 : Nat), (0 : Nat)), (3, 0)]).length) ∧
    (∃ hgt, height 3 (insertAll flipCoin [((5 : Nat), (0 : Nat)), (3, 0)]
        emptySkipList) = some hgt ∧ 1 ≤ hgt ∧ hgt ≤ maxFlips 2) :=
  ⟨⟨by decide, by decide⟩,
   claim_C3 flipCoin [((5 : Nat), (0 : Nat)), (3, 0)] (by decide) 1 (by decide)⟩

end SkipList
